import Mathlib

/-!
Verification development for scripts/convert_excel.py: the batch transform
that reads the Daily_raw and Title sheets of a sales workbook and emits the
five dashboard JSON aggregates (daily, monthly, per-title, per-platform,
title master).

Embedding conventions.
The pandas table is modelled as a list of rows; a cell that can be missing
(NaN in pandas) is an Option.  The outcome of pd.to_datetime on the date
cell is modelled directly by its result: none for an unparseable cell, some
s with s the ISO YYYY-MM-DD rendering of the parsed date (the code only ever
uses the strftime string after parsing, so nothing is lost).  Numbers are
exact rationals; Python int() is truncation toward zero (truncRat below).
pandas groupby(sort=True, dropna=True) is modelled as: the ascending sorted
list of the distinct non-missing keys, with the group of a key being the
rows carrying that key in their original order.  Python list.sort is
modelled by a stable insertion sort, which its specification guarantees.
Series.sort_values (default kind quicksort) is NOT stable in general: the
model uses the same stable insertion sort as a deterministic stand-in, and
no theorem below asserts the relative order of entries whose sort_values
keys tie, except on concrete two-element inputs, which fall under the
numpy insertion-sort threshold where the real sort is stable too.
-/

namespace ConvertExcel

/-- Stable insertion of a into a list, placing a before the first element b
with le a b; used to model the stable sorts of the script. -/
def insBy (le : α → α → Bool) (a : α) : List α → List α
  | [] => [a]
  | b :: bs => if le a b then a :: b :: bs else b :: insBy le a bs

/-- Stable insertion sort: elements are inserted from the last to the first,
so an earlier element ends up before any equal later one. -/
def sortBy (le : α → α → Bool) : List α → List α
  | [] => []
  | a :: l => insBy le a (sortBy le l)

theorem insBy_perm (le : α → α → Bool) (a : α) (l : List α) :
    List.Perm (insBy le a l) (a :: l) := by
  induction l with
  | nil => simp [insBy]
  | cons b bs ih =>
    by_cases h : le a b
    · simp [insBy, h]
    · simp only [insBy, h, if_neg]
      exact (ih.cons b).trans (List.Perm.swap a b bs)

theorem sortBy_perm (le : α → α → Bool) (l : List α) : List.Perm (sortBy le l) l := by
  induction l with
  | nil => simp [sortBy]
  | cons a l ih => exact (insBy_perm le a (sortBy le l)).trans (ih.cons a)

theorem mem_sortBy {le : α → α → Bool} {l : List α} {x : α} :
    x ∈ sortBy le l ↔ x ∈ l :=
  (sortBy_perm le l).mem_iff

/-- Pairwise fact transfer that may use membership in the list. -/
theorem pairwiseImpMem {R R2 : α → α → Prop} {l : List α}
    (h : ∀ a ∈ l, ∀ b ∈ l, R a b → R2 a b) (hp : l.Pairwise R) :
    l.Pairwise R2 := by
  induction l with
  | nil => exact List.Pairwise.nil
  | cons a l ih =>
    rcases List.pairwise_cons.mp hp with ⟨ha, hl⟩
    refine List.pairwise_cons.mpr ⟨?_, ?_⟩
    · intro b hb
      exact h a (List.mem_cons_self a l) b (List.mem_cons_of_mem a hb) (ha b hb)
    · exact ih (fun x hx y hy => h x (List.mem_cons_of_mem a hx) y (List.mem_cons_of_mem a hy)) hl

/-- Output relation of a stable sort: sorted with respect to le, and when two
elements compare equal their original relation S is preserved. -/
def stableRel (le : α → α → Bool) (S : α → α → Prop) (x y : α) : Prop :=
  le x y = true ∧ (le y x = true → S x y)

theorem insBy_pairwise {le : α → α → Bool} {S : α → α → Prop}
    (htot : ∀ a b, le a b = true ∨ le b a = true)
    (htrans : ∀ a b c, le a b = true → le b c = true → le a c = true)
    {a : α} {m : List α}
    (hm : m.Pairwise (stableRel le S)) (ha : ∀ b ∈ m, S a b) :
    (insBy le a m).Pairwise (stableRel le S) := by
  induction m with
  | nil => simp [insBy, stableRel]
  | cons b bs ih =>
    rcases List.pairwise_cons.mp hm with ⟨hb, hbs⟩
    by_cases h : le a b = true
    · simp only [insBy, h, if_pos]
      refine List.pairwise_cons.mpr ⟨?_, List.pairwise_cons.mpr ⟨hb, hbs⟩⟩
      intro c hc
      rcases List.mem_cons.mp hc with rfl | hc
      · exact ⟨h, fun _ => ha c (List.mem_cons_self c bs)⟩
      · exact ⟨htrans a b c h (hb c hc).1, fun _ => ha c (List.mem_cons_of_mem b hc)⟩
    · simp only [insBy, h, if_neg]
      refine List.pairwise_cons.mpr ⟨?_, ?_⟩
      · intro c hc
        rcases List.mem_cons.mp ((insBy_perm le a bs).mem_iff.mp hc) with rfl | hc
        · exact ⟨(htot c b).resolve_left h, fun hab => absurd hab h⟩
        · exact hb c hc
      · exact ih hbs (fun c hc => ha c (List.mem_cons_of_mem b hc))

theorem sortBy_pairwise {le : α → α → Bool} {S : α → α → Prop}
    (htot : ∀ a b, le a b = true ∨ le b a = true)
    (htrans : ∀ a b c, le a b = true → le b c = true → le a c = true)
    {l : List α} (hl : l.Pairwise S) :
    (sortBy le l).Pairwise (stableRel le S) := by
  induction l with
  | nil => exact List.Pairwise.nil
  | cons a l ih =>
    rcases List.pairwise_cons.mp hl with ⟨ha, hl⟩
    exact insBy_pairwise htot htrans (ih hl)
      (fun b hb => ha b ((sortBy_perm le l).mem_iff.mp hb))

/-- Python int() applied to a number: truncation toward zero. -/
def truncRat (q : ℚ) : ℤ :=
  if 0 ≤ q then ⌊q⌋ else ⌈q⌉

/-- Python round() to the nearest integer, halves to the even neighbour. -/
def roundHalfEven (q : ℚ) : ℤ :=
  if q - ⌊q⌋ < 1 / 2 then ⌊q⌋
  else if 1 / 2 < q - ⌊q⌋ then ⌊q⌋ + 1
  else if ⌊q⌋ % 2 = 0 then ⌊q⌋ else ⌊q⌋ + 1

/-- Python round(x, 2). -/
def round2 (q : ℚ) : ℚ :=
  (roundHalfEven (q * 100) : ℚ) / 100

/-- The CHANNEL_NORMALIZE table of the script: an exact-match dictionary
from the four known raw spellings to the canonical lowercase names. -/
def CHANNEL_NORMALIZE : List (String × String) :=
  [("piccoma", "piccoma"), ("Piccoma", "piccoma"), ("cmoa", "cmoa"), ("CMOA", "cmoa")]

/-- dict.get(k, k): the table value at k, or k itself when k is not a key. -/
def lookupDefault (tbl : List (String × String)) (k : String) : String :=
  match tbl.find? (fun p => p.1 == k) with
  | some p => p.2
  | none => k

/-- Whitespace test of Python str.strip (space, tab, newline, carriage
return; the exotic Unicode space classes are not exercised by this data). -/
def isSpaceChar (c : Char) : Bool :=
  c == ' ' || c == '\t' || c == '\n' || c == '\r'

/-- Python str.strip(): drop leading and trailing whitespace. -/
def strStrip (s : String) : String :=
  ⟨((s.data.dropWhile isSpaceChar).reverse.dropWhile isSpaceChar).reverse⟩

/-- normalize_channel on a non-missing cell: strip then table lookup. -/
def normalize_channel_str (s : String) : String :=
  lookupDefault CHANNEL_NORMALIZE (strStrip s)

/-- normalize_channel: a missing cell (pd.isna) gives the empty string,
otherwise the cell text is stripped and passed through the table. -/
def normalize_channel (raw : Option String) : String :=
  match raw with
  | none => ""
  | some s => normalize_channel_str s

/-- Python str.lower(), structurally on the char list. -/
def strLower (s : String) : String := ⟨s.data.map Char.toLower⟩

/-- Modelled from the spec sentence: channel is normalized via a
case-insensitive lookup table mapping known raw spellings to canonical
lowercase identifiers; unrecognized values pass through trimmed.  Stated
only for comparison with normalize_channel, the function the script
defines. -/
def normalize_channel_ci (raw : Option String) : String :=
  match raw with
  | none => ""
  | some s =>
    if strLower (strStrip s) = "piccoma" then "piccoma"
    else if strLower (strStrip s) = "cmoa" then "cmoa"
    else strStrip s

/-- One row of the Daily_raw sheet after the column rename, with the two
cells the cleaning step inspects already carrying their parse outcomes:
dateParsed is the pd.to_datetime result (none = unparseable, some s = the
YYYY-MM-DD rendering of the parsed date) and salesNum the pd.to_numeric
result (none = non-numeric cell). -/
structure RawRow where
  titleJP : Option String
  titleKR : Option String
  channelRaw : Option String
  dateParsed : Option String
  salesNum : Option ℚ
  deriving Repr, DecidableEq

/-- A cleaned SalesRecord row: channel normalized, date the date_str
column, sales the coerced numeric value. -/
structure Rec where
  titleJP : Option String
  titleKR : Option String
  channel : String
  date : String
  sales : ℚ
  deriving Repr, DecidableEq

/-- The month column: dt.to_period(M) of a YYYY-MM-DD string is its YYYY-MM
prefix. -/
def Rec.monthKey (r : Rec) : String := r.date.take 7

/-- pd.to_numeric(...).fillna(0): a non-numeric sales cell is coerced to 0. -/
def coerceSales (s : Option ℚ) : ℚ := s.getD 0

/-- One row of the cleaning pipeline: rows without a parseable date are
dropped, sales is coerced, and only rows with sales strictly above zero are
kept. -/
def cleanRow (r : RawRow) : Option Rec :=
  match r.dateParsed with
  | none => none
  | some d =>
    if 0 < coerceSales r.salesNum then
      some ⟨r.titleJP, r.titleKR, normalize_channel r.channelRaw, d, coerceSales r.salesNum⟩
    else none

/-- The cleaned Daily_raw table. -/
def cleanRows (rows : List RawRow) : List Rec := rows.filterMap cleanRow

/-- One record of daily_sales.json.  (The fillna("") on the channel column
is a no-op: normalize_channel already returned a string for every row.) -/
structure DailyRec where
  titleKR : String
  titleJP : String
  channel : String
  date : String
  sales : ℚ
  deriving Repr, DecidableEq

/-- Projection of a cleaned row onto the daily_sales.json shape, filling
missing titles with the empty string. -/
def dailyRecord (r : Rec) : DailyRec :=
  ⟨r.titleKR.getD "", r.titleJP.getD "", r.channel, r.date, r.sales⟩

/-- daily_sales.json: a pass-through projection of the cleaned table. -/
def daily_sales (rows : List RawRow) : List DailyRec :=
  (cleanRows rows).map dailyRecord

/-- The daily record a raw row would produce, written without the cleaning
pipeline. -/
def rawProj (r : RawRow) : DailyRec :=
  ⟨r.titleKR.getD "", r.titleJP.getD "", normalize_channel r.channelRaw,
    r.dateParsed.getD "", coerceSales r.salesNum⟩

/-- C1. A record appears in the daily-sales output exactly for the input
rows whose raw date cell parses to a valid calendar date and whose sales
value, after numeric coercion with non-numeric cells coerced to zero, is
strictly positive: the output is precisely the projection, in order, of the
rows passing that test. -/
theorem claim1_daily_filter (rows : List RawRow) :
    daily_sales rows
      = (rows.filter (fun r => r.dateParsed.isSome && decide (0 < coerceSales r.salesNum))).map
          rawProj := by
  induction rows with
  | nil => rfl
  | cons r rows ih =>
    simp only [daily_sales, cleanRows] at ih
    cases hd : r.dateParsed with
    | none =>
      have hcr : cleanRow r = none := by simp [cleanRow, hd]
      simp only [daily_sales, cleanRows, List.filterMap_cons, hcr, List.filter_cons, hd,
        Option.isSome_none, Bool.false_and]
      exact ih
    | some d =>
      by_cases hs : 0 < coerceSales r.salesNum
      · have hcr : cleanRow r = some ⟨r.titleJP, r.titleKR, normalize_channel r.channelRaw, d,
            coerceSales r.salesNum⟩ := by
          simp [cleanRow, hd, hs]
        simp only [daily_sales, cleanRows, List.filterMap_cons, hcr, List.filter_cons, hd,
          Option.isSome_some, Bool.true_and, decide_eq_true hs, if_true, List.map_cons]
        refine congrArg₂ List.cons ?_ ih
        simp [rawProj, dailyRecord, hd]
      · have hcr : cleanRow r = none := by simp [cleanRow, hd, hs]
        have hsd : decide (0 < coerceSales r.salesNum) = false := by simpa using hs
        simp only [daily_sales, cleanRows, List.filterMap_cons, hcr, List.filter_cons, hd,
          Option.isSome_some, Bool.true_and, hsd, if_false]
        exact ih

/-- Sum of the sales column of a list of rows. -/
def sumSales (l : List Rec) : ℚ := (l.map Rec.sales).sum

/-- Lexicographic strict comparison of char lists by code point, the order
Python string comparison uses; written structurally so that it computes. -/
def charListLt : List Char → List Char → Bool
  | [], [] => false
  | [], _ :: _ => true
  | _ :: _, [] => false
  | a :: as, b :: bs => if a < b then true else if b < a then false else charListLt as bs

/-- Strict string comparison by code points. -/
def strLtB (a b : String) : Bool := charListLt a.data b.data

/-- String comparison a ≤ b by code points. -/
def strLeB (a b : String) : Bool := !(strLtB b a)

theorem charListLt_iff (as bs : List Char) :
    charListLt as bs = true ↔ List.Lex (· < ·) as bs := by
  induction as generalizing bs with
  | nil =>
    cases bs with
    | nil =>
      simp only [charListLt, Bool.false_eq_true, false_iff]
      nofun
    | cons b bs =>
      simp only [charListLt, true_iff]
      exact List.Lex.nil
  | cons a as ih =>
    cases bs with
    | nil =>
      simp only [charListLt, Bool.false_eq_true, false_iff]
      nofun
    | cons b bs =>
      rcases lt_trichotomy a b with hab | rfl | hba
      · simp only [charListLt, if_pos hab, true_iff]
        exact List.Lex.rel hab
      · simp only [charListLt, if_neg (lt_irrefl a), ih]
        constructor
        · exact fun h => List.Lex.cons h
        · intro h
          cases h with
          | cons h1 => exact h1
          | rel h1 => exact absurd h1 (lt_irrefl a)
      · have hab : ¬ a < b := not_lt_of_gt hba
        simp only [charListLt, if_neg hab, if_pos hba, Bool.false_eq_true, false_iff]
        intro h
        cases h with
        | cons h1 => exact absurd hba (lt_irrefl a)
        | rel h1 => exact absurd h1 hab

theorem strLtB_iff (a b : String) : strLtB a b = true ↔ a < b := by
  rw [strLtB, charListLt_iff]
  exact String.lt_iff_toList_lt.symm

theorem strLeB_iff (a b : String) : strLeB a b = true ↔ a ≤ b := by
  have h1 : strLeB a b = true ↔ ¬ strLtB b a = true := by simp [strLeB]
  rw [h1, strLtB_iff b a]
  exact not_lt

theorem strLeB_total (a b : String) : strLeB a b = true ∨ strLeB b a = true := by
  rw [strLeB_iff, strLeB_iff]
  exact le_total a b

theorem strLeB_trans (a b c : String) (h1 : strLeB a b = true) (h2 : strLeB b c = true) :
    strLeB a c = true := by
  rw [strLeB_iff] at h1 h2 ⊢
  exact le_trans h1 h2

/-- Ascending comparison on strings, as a Bool for the sort model: the
code-point lexicographic order, the order Python sorted() and the pandas
groupby use on str keys. -/
def ascString : String → String → Bool := strLeB

/-- The index a pandas groupby produces from a column of key values: the
distinct keys in ascending order. -/
def sortedKeys (l : List String) : List String := sortBy ascString l.dedup

/-- The distinct month keys of the cleaned table, ascending. -/
def monthKeys (recs : List Rec) : List String := sortedKeys (recs.map Rec.monthKey)

/-- The distinct channel values of the cleaned table, ascending: both the
columns of the unstacked month-by-channel frame and the platform groupby
index. -/
def allChannels (recs : List Rec) : List String := sortedKeys (recs.map Rec.channel)

/-- groupby(month).sales.sum() at one month key. -/
def monthSum (recs : List Rec) (m : String) : ℚ :=
  sumSales (recs.filter (fun r => r.monthKey == m))

/-- groupby([month, channel]).sales.sum() at one cell; the unstack
fill_value 0 is this sum over an empty filter. -/
def monthChanSum (recs : List Rec) (m c : String) : ℚ :=
  sumSales (recs.filter (fun r => r.monthKey == m && r.channel == c))

/-- One entry of monthly_summary.json. -/
structure MonthlyEntry where
  month : String
  totalSales : ℤ
  platforms : List (String × ℤ)
  deriving Repr, DecidableEq

/-- monthly_summary.json: one entry per month in ascending month order; the
platforms dict walks the unstacked columns (every channel of the table, in
ascending order) and keeps the channels with a positive sum.  The guard
testing that the month is in the unstacked index is dropped: every month
key comes from a row, so it always holds. -/
def monthly_summary (recs : List Rec) : List MonthlyEntry :=
  (monthKeys recs).map (fun m =>
    { month := m
      totalSales := truncRat (monthSum recs m)
      platforms := (allChannels recs).filterMap (fun c =>
        if 0 < monthChanSum recs m c then some (c, truncRat (monthChanSum recs m c))
        else none) })

/-- One row of the Title catalog sheet after the column rename.  The
channelTitleJP column is carried by the sheet but never read downstream,
so it is not modelled.  The platform column holds the raw cell here; the
script normalizes it at load time and again inside the master pass, and
normalize_channel is idempotent, so the master pass below applies it once. -/
structure CatRow where
  titleJP : Option String
  titleKR : Option String
  seriesName : Option String
  platform : Option String
  deriving Repr, DecidableEq

/-- The seriesName join of the title summary: the first catalog row whose
titleJP equals the group key, empty when there is none or the cell is
missing. -/
def seriesLookup (cats : List CatRow) (t : String) : String :=
  match (cats.filter (fun c => c.titleJP == some t)).head? with
  | some c => c.seriesName.getD ""
  | none => ""

/-- One entry of a per-title platform breakdown. -/
structure PlatEntry where
  name : String
  sales : ℤ
  deriving Repr, DecidableEq

/-- One entry of a monthly trend sequence. -/
structure TrendEntry where
  month : String
  sales : ℤ
  deriving Repr, DecidableEq

/-- One entry of title_summary.json. -/
structure TitleEntry where
  titleKR : String
  titleJP : String
  seriesName : String
  totalSales : ℤ
  platforms : List PlatEntry
  dailyAvg : ℚ
  peakDate : String
  peakSales : ℤ
  firstDate : String
  lastDate : String
  monthlyTrend : List TrendEntry
  deriving Repr, DecidableEq

/-- The distinct channel values inside one group, ascending. -/
def chanKeysOf (g : List Rec) : List String := sortedKeys (g.map Rec.channel)

/-- The distinct date strings inside one group, ascending. -/
def dateKeysOf (g : List Rec) : List String := sortedKeys (g.map Rec.date)

/-- The distinct month keys inside one group, ascending. -/
def monthKeysOf (g : List Rec) : List String := sortedKeys (g.map Rec.monthKey)

/-- grp.groupby(date_str).sales.sum(): per-date totals of a group, indexed
by the ascending distinct dates. -/
def dailyTotals (g : List Rec) : List (String × ℚ) :=
  (dateKeysOf g).map (fun d => (d, sumSales (g.filter (fun r => r.date == d))))

/-- Series.idxmax scan: the index of the first strictly larger value wins. -/
def idxmaxAux : (String × ℚ) → List (String × ℚ) → String
  | best, [] => best.1
  | best, p :: rest => if best.2 < p.2 then idxmaxAux p rest else idxmaxAux best rest

/-- Series.idxmax: the first index attaining the maximum value.  The empty
case never arises in the script (every group is nonempty). -/
def idxmax : List (String × ℚ) → String
  | [] => ""
  | p :: rest => idxmaxAux p rest

/-- Series.max running fold. -/
def maxValAux : ℚ → List (String × ℚ) → ℚ
  | m, [] => m
  | m, p :: rest => maxValAux (max m p.2) rest

/-- Series.max over the values of an indexed series. -/
def maxVal : List (String × ℚ) → ℚ
  | [] => 0
  | p :: rest => maxValAux p.2 rest

/-- Series.min on a string column (nonempty in the script). -/
def minString : List String → String
  | [] => ""
  | a :: l => l.foldl min a

/-- Series.max on a string column (nonempty in the script). -/
def maxString : List String → String
  | [] => ""
  | a :: l => l.foldl max a

/-- sort_values(ascending=False) comparison on an indexed ℚ series. -/
def descQ : (String × ℚ) → (String × ℚ) → Bool := fun x y => decide (y.2 ≤ x.2)

/-- The distinct non-missing titleJP keys of the cleaned table, ascending:
the title groupby index (rows with a missing titleJP belong to no group). -/
def titleKeys (recs : List Rec) : List String :=
  sortBy ascString (recs.filterMap Rec.titleJP).dedup

/-- The title_summary entry built for one titleJP group. -/
def mkTitleEntry (cats : List CatRow) (recs : List Rec) (t : String) : TitleEntry :=
  let g := recs.filter (fun r => r.titleJP == some t)
  let total := sumSales g
  let nDays := ((g.map Rec.date).dedup).length
  { titleKR := match g.head? with | some r => r.titleKR.getD "" | none => ""
    titleJP := t
    seriesName := seriesLookup cats t
    totalSales := truncRat total
    platforms := (sortBy descQ ((chanKeysOf g).map
        (fun c => (c, sumSales (g.filter (fun r => r.channel == c)))))).filterMap
        (fun p => if 0 < p.2 then some ⟨p.1, truncRat p.2⟩ else none)
    dailyAvg := if 0 < nDays then round2 (total / nDays) else 0
    peakDate := idxmax (dailyTotals g)
    peakSales := truncRat (maxVal (dailyTotals g))
    firstDate := minString (g.map Rec.date)
    lastDate := maxString (g.map Rec.date)
    monthlyTrend := (monthKeysOf g).map
        (fun m => ⟨m, truncRat (sumSales (g.filter (fun r => r.monthKey == m)))⟩) }

/-- list.sort(key=totalSales, reverse=True) comparison for title entries. -/
def descTitle : TitleEntry → TitleEntry → Bool := fun a b => decide (b.totalSales ≤ a.totalSales)

/-- title_summary.json: one entry per distinct titleJP, sorted descending
by the emitted totalSales with the stable Python sort. -/
def title_summary (cats : List CatRow) (recs : List Rec) : List TitleEntry :=
  sortBy descTitle ((titleKeys recs).map (mkTitleEntry cats recs))

/-- One entry of a platform topTitles list. -/
structure TopTitle where
  titleKR : String
  titleJP : String
  sales : ℤ
  deriving Repr, DecidableEq

/-- One entry of platform_summary.json. -/
structure PlatformEntry where
  platform : String
  totalSales : ℤ
  titleCount : ℤ
  monthlyTrend : List TrendEntry
  topTitles : List TopTitle
  deriving Repr, DecidableEq

/-- Ascending lexicographic comparison on (titleKR, titleJP) pairs: the
order of the two-level groupby index. -/
def ascPair : (String × String) → (String × String) → Bool :=
  fun a b => strLtB a.1 b.1 || (a.1 == b.1 && strLeB a.2 b.2)

/-- The distinct (titleKR, titleJP) pairs of a group, ascending; a row with
either cell missing belongs to no pair group. -/
def pairKeysOf (g : List Rec) : List (String × String) :=
  sortBy ascPair ((g.filterMap (fun r =>
    match r.titleKR, r.titleJP with
    | some kr, some jp => some (kr, jp)
    | _, _ => none)).dedup)

/-- groupby([titleKR, titleJP]).sales.sum() at one pair. -/
def pairSum (g : List Rec) (p : String × String) : ℚ :=
  sumSales (g.filter (fun r => r.titleKR == some p.1 && r.titleJP == some p.2))

/-- sort_values(ascending=False) comparison on the pair-indexed series. -/
def descPairQ : ((String × String) × ℚ) → ((String × String) × ℚ) → Bool :=
  fun x y => decide (y.2 ≤ x.2)

/-- The platform_summary entry built for one channel group.  The notna
guards on the emitted pair are dropped: a two-level groupby key is never
missing.  The topTitles sort_values call is modelled by the stable
insertion sort as a deterministic stand-in; the program's numpy quicksort
leaves the order of pairs with equal sums unspecified past its small-size
threshold, so no claim theorem relies on this model's tie order (only the
C6 counterexample evaluates it, on a two-element series where the real
sort is numpy's insertion sort and agrees). -/
def mkPlatformEntry (recs : List Rec) (c : String) : PlatformEntry :=
  let g := recs.filter (fun r => r.channel == c)
  { platform := c
    totalSales := truncRat (sumSales g)
    titleCount := ((g.filterMap Rec.titleJP).dedup).length
    monthlyTrend := (monthKeysOf g).map
        (fun m => ⟨m, truncRat (sumSales (g.filter (fun r => r.monthKey == m)))⟩)
    topTitles := ((sortBy descPairQ ((pairKeysOf g).map (fun p => (p, pairSum g p)))).take 10).map
        (fun x => ⟨x.1.1, x.1.2, truncRat x.2⟩) }

/-- list.sort(key=totalSales, reverse=True) comparison for platform
entries. -/
def descPlat : PlatformEntry → PlatformEntry → Bool :=
  fun a b => decide (b.totalSales ≤ a.totalSales)

/-- platform_summary.json: one entry per distinct channel, sorted
descending by the emitted totalSales with the stable Python sort. -/
def platform_summary (recs : List Rec) : List PlatformEntry :=
  sortBy descPlat ((allChannels recs).map (mkPlatformEntry recs))

/-- One entry of title_master.json. -/
structure MasterEntry where
  titleKR : String
  titleJP : String
  seriesName : String
  platforms : List String
  deriving Repr, DecidableEq

/-- The first non-missing value of a column walk, empty when none: the
for/break loops of the master pass. -/
def firstNonNa : List (Option String) → String
  | [] => ""
  | some s :: _ => s
  | none :: l => firstNonNa l

/-- sorted(set(...)) of the normalized non-blank platform cells of a
catalog group. -/
def masterPlatforms (g : List CatRow) : List String :=
  sortBy ascString
    (((g.filterMap CatRow.platform).filter
      (fun p => strStrip p != "")).map normalize_channel_str).dedup

/-- The distinct non-missing titleJP keys of the catalog, ascending. -/
def masterKeys (cats : List CatRow) : List String :=
  sortBy ascString (cats.filterMap CatRow.titleJP).dedup

/-- title_master.json: one entry per distinct non-missing catalog titleJP.
The isna and seen-set guards of the loop are dropped: the groupby index
already holds each non-missing key exactly once, so neither ever fires. -/
def title_master (cats : List CatRow) : List MasterEntry :=
  (masterKeys cats).map (fun t =>
    let g := cats.filter (fun c => c.titleJP == some t)
    { titleKR := firstNonNa (g.map CatRow.titleKR)
      titleJP := t
      seriesName := firstNonNa (g.map CatRow.seriesName)
      platforms := masterPlatforms g })

/-- C4 counterexample.  The lookup is not case-insensitive: the raw value
PICCOMA is a casing of the known spelling piccoma, yet normalize_channel
passes it through unchanged, while the case-insensitive lookup the spec
describes would canonicalize it. -/
theorem claim4_cex :
    normalize_channel (some "PICCOMA") = "PICCOMA"
      ∧ normalize_channel_ci (some "PICCOMA") = "piccoma"
      ∧ "PICCOMA" ≠ "piccoma" := by
  refine ⟨rfl, by decide, by decide⟩

/-- C4 (amended).  Normalization trims whitespace and maps the result
through an exact-match table holding the four spellings piccoma, Piccoma,
cmoa and CMOA (not a case-insensitive lookup); any other value, unknown
casings included, passes through unchanged apart from trimming; a missing
input yields the empty string (the return type is String, so no null value
is possible). -/
theorem claim4_normalize (s : String) :
    normalize_channel none = ""
      ∧ normalize_channel (some s)
          = (if strStrip s = "piccoma" then "piccoma"
             else if strStrip s = "Piccoma" then "piccoma"
             else if strStrip s = "cmoa" then "cmoa"
             else if strStrip s = "CMOA" then "cmoa"
             else strStrip s) := by
  refine ⟨rfl, ?_⟩
  show lookupDefault CHANNEL_NORMALIZE (strStrip s) = _
  unfold lookupDefault CHANNEL_NORMALIZE
  by_cases h1 : strStrip s = "piccoma"
  · simp [List.find?, h1]
  · have b1 : ("piccoma" == strStrip s) = false := by
      simp only [beq_eq_false_iff_ne]
      exact Ne.symm h1
    by_cases h2 : strStrip s = "Piccoma"
    · simp [List.find?, b1, h2]
    · have b2 : ("Piccoma" == strStrip s) = false := by
        simp only [beq_eq_false_iff_ne]
        exact Ne.symm h2
      by_cases h3 : strStrip s = "cmoa"
      · simp [List.find?, b1, b2, h3]
      · have b3 : ("cmoa" == strStrip s) = false := by
          simp only [beq_eq_false_iff_ne]
          exact Ne.symm h3
        by_cases h4 : strStrip s = "CMOA"
        · simp [List.find?, b1, b2, b3, h4]
        · have b4 : ("CMOA" == strStrip s) = false := by
            simp only [beq_eq_false_iff_ne]
            exact Ne.symm h4
          simp [List.find?, b1, b2, b3, b4, h1, h2, h3, h4]

/-- A Python float value as the writer sees it: not-a-number, one of the
two infinities, or a finite value (modelled exactly). -/
inductive PyFloat where
  | nan
  | inf
  | ninf
  | finite (q : ℚ)
  deriving Repr, DecidableEq

/-- A Python structure handed to write_json: the JSON-like fragment of
dicts with string keys, lists, floats, ints, strings, bools and None. -/
inductive PyVal where
  | pnull
  | pbool (b : Bool)
  | pint (n : ℤ)
  | pstr (s : String)
  | pfloat (f : PyFloat)
  | pdict (entries : List (String × PyVal))
  | plist (items : List PyVal)

mutual

/-- clean_for_json: recursively walk the structure; a NaN or infinite float
becomes None, a float equal to its own int() becomes that int, and every
other value is returned unchanged.  math.isnan/isinf pick out exactly the
non-finite constructors; obj == int(obj) on a finite value is the
truncation test. -/
def clean_for_json : PyVal → PyVal
  | .pdict es => .pdict (cleanDict es)
  | .plist vs => .plist (cleanList vs)
  | .pfloat .nan => .pnull
  | .pfloat .inf => .pnull
  | .pfloat .ninf => .pnull
  | .pfloat (.finite q) =>
    if q = (truncRat q : ℚ) then .pint (truncRat q) else .pfloat (.finite q)
  | .pnull => .pnull
  | .pbool b => .pbool b
  | .pint n => .pint n
  | .pstr s => .pstr s

/-- The dict comprehension of clean_for_json: values cleaned, keys kept. -/
def cleanDict : List (String × PyVal) → List (String × PyVal)
  | [] => []
  | (k, v) :: es => (k, clean_for_json v) :: cleanDict es

/-- The list comprehension of clean_for_json. -/
def cleanList : List PyVal → List PyVal
  | [] => []
  | v :: vs => clean_for_json v :: cleanList vs

end

mutual

/-- Every value occurring in a structure at any nesting depth, the
structure itself included. -/
def subVals : PyVal → List PyVal
  | .pdict es => .pdict es :: subValsDict es
  | .plist vs => .plist vs :: subValsList vs
  | v => [v]

/-- Subvalues of the entries of a dict. -/
def subValsDict : List (String × PyVal) → List PyVal
  | [] => []
  | (_, v) :: es => subVals v ++ subValsDict es

/-- Subvalues of the items of a list. -/
def subValsList : List PyVal → List PyVal
  | [] => []
  | v :: vs => subVals v ++ subValsList vs

end

/-- A float the serializer would choke on: NaN or infinite. -/
def isBadFloat : PyVal → Bool
  | .pfloat .nan => true
  | .pfloat .inf => true
  | .pfloat .ninf => true
  | _ => false

/-- A float with no fractional part. -/
def isWholeFloat : PyVal → Bool
  | .pfloat (.finite q) => q.den == 1
  | _ => false

/-- A finite rational equals its own Python int() exactly when it has
denominator one, that is, no fractional part. -/
theorem truncRat_fixed_iff (q : ℚ) : q = (truncRat q : ℚ) ↔ q.den = 1 := by
  constructor
  · intro h
    rw [h]
    exact Rat.den_intCast (truncRat q)
  · intro h
    have h2 : (q.num : ℚ) = q := by
      rw [← Rat.den_eq_one_iff]
      exact h
    rw [truncRat]
    rcases le_or_lt 0 q with hq | hq
    · rw [if_pos hq, ← h2, Int.floor_intCast]
    · rw [if_neg (not_le.mpr hq), ← h2, Int.ceil_intCast]

theorem cleanDict_eq_map (es : List (String × PyVal)) :
    cleanDict es = es.map (fun kv => (kv.1, clean_for_json kv.2)) := by
  induction es with
  | nil => rfl
  | cons kv es ih =>
    cases kv with
    | mk k v => simp [cleanDict, ih]

theorem cleanList_eq_map (vs : List PyVal) : cleanList vs = vs.map clean_for_json := by
  induction vs with
  | nil => rfl
  | cons v vs ih => simp [cleanList, ih]

mutual

theorem subVals_clean_good (v : PyVal) :
    ∀ w ∈ subVals (clean_for_json v), isBadFloat w = false ∧ isWholeFloat w = false := by
  cases v with
  | pdict es =>
    intro w hw
    rw [show clean_for_json (.pdict es) = .pdict (cleanDict es) from rfl] at hw
    rw [show subVals (.pdict (cleanDict es))
        = .pdict (cleanDict es) :: subValsDict (cleanDict es) from rfl] at hw
    rcases List.mem_cons.mp hw with rfl | hw
    · exact ⟨rfl, rfl⟩
    · exact subValsDict_clean_good es w hw
  | plist vs =>
    intro w hw
    rw [show clean_for_json (.plist vs) = .plist (cleanList vs) from rfl] at hw
    rw [show subVals (.plist (cleanList vs))
        = .plist (cleanList vs) :: subValsList (cleanList vs) from rfl] at hw
    rcases List.mem_cons.mp hw with rfl | hw
    · exact ⟨rfl, rfl⟩
    · exact subValsList_clean_good vs w hw
  | pfloat f =>
    intro w hw
    cases f with
    | nan => simp [clean_for_json, subVals] at hw; subst hw; exact ⟨rfl, rfl⟩
    | inf => simp [clean_for_json, subVals] at hw; subst hw; exact ⟨rfl, rfl⟩
    | ninf => simp [clean_for_json, subVals] at hw; subst hw; exact ⟨rfl, rfl⟩
    | finite q =>
      by_cases h : q = (truncRat q : ℚ)
      · simp only [clean_for_json, if_pos h, subVals, List.mem_singleton] at hw
        subst hw
        exact ⟨rfl, rfl⟩
      · simp only [clean_for_json, if_neg h, subVals, List.mem_singleton] at hw
        subst hw
        refine ⟨rfl, ?_⟩
        show (q.den == 1) = false
        rw [beq_eq_false_iff_ne]
        intro hden
        exact h ((truncRat_fixed_iff q).mpr hden)
  | pnull => intro w hw; simp [clean_for_json, subVals] at hw; subst hw; exact ⟨rfl, rfl⟩
  | pbool b => intro w hw; simp [clean_for_json, subVals] at hw; subst hw; exact ⟨rfl, rfl⟩
  | pint n => intro w hw; simp [clean_for_json, subVals] at hw; subst hw; exact ⟨rfl, rfl⟩
  | pstr s => intro w hw; simp [clean_for_json, subVals] at hw; subst hw; exact ⟨rfl, rfl⟩

theorem subValsDict_clean_good (es : List (String × PyVal)) :
    ∀ w ∈ subValsDict (cleanDict es), isBadFloat w = false ∧ isWholeFloat w = false := by
  cases es with
  | nil => intro w hw; simp [cleanDict, subValsDict] at hw
  | cons kv es =>
    intro w hw
    cases kv with
    | mk k v =>
      rw [show cleanDict ((k, v) :: es) = (k, clean_for_json v) :: cleanDict es from rfl] at hw
      rw [show subValsDict ((k, clean_for_json v) :: cleanDict es)
          = subVals (clean_for_json v) ++ subValsDict (cleanDict es) from rfl] at hw
      rcases List.mem_append.mp hw with hw | hw
      · exact subVals_clean_good v w hw
      · exact subValsDict_clean_good es w hw

theorem subValsList_clean_good (vs : List PyVal) :
    ∀ w ∈ subValsList (cleanList vs), isBadFloat w = false ∧ isWholeFloat w = false := by
  cases vs with
  | nil => intro w hw; simp [cleanList, subValsList] at hw
  | cons v vs =>
    intro w hw
    rw [show cleanList (v :: vs) = clean_for_json v :: cleanList vs from rfl] at hw
    rw [show subValsList (clean_for_json v :: cleanList vs)
        = subVals (clean_for_json v) ++ subValsList (cleanList vs) from rfl] at hw
    rcases List.mem_append.mp hw with hw | hw
    · exact subVals_clean_good v w hw
    · exact subValsList_clean_good vs w hw

end

/-- C9.  The writer sanitization replaces every NaN or infinite float, at
any nesting depth, with None; replaces every float with no fractional part
(denominator one) with its integer equivalent; keeps floats with a
fractional part; recurses through dicts (keys kept) and lists; and leaves
every other value unchanged.  In particular no NaN or infinite float and no
whole-valued float survives anywhere in the cleaned structure. -/
theorem claim9_clean_json (v : PyVal) (q : ℚ) (n : ℤ) (s : String) (b : Bool)
    (es : List (String × PyVal)) (vs : List PyVal) :
    clean_for_json (.pfloat .nan) = .pnull
      ∧ clean_for_json (.pfloat .inf) = .pnull
      ∧ clean_for_json (.pfloat .ninf) = .pnull
      ∧ clean_for_json (.pfloat (.finite q))
          = (if q.den = 1 then .pint q.num else .pfloat (.finite q))
      ∧ clean_for_json (.pdict es) = .pdict (es.map (fun kv => (kv.1, clean_for_json kv.2)))
      ∧ clean_for_json (.plist vs) = .plist (vs.map clean_for_json)
      ∧ clean_for_json .pnull = .pnull
      ∧ clean_for_json (.pbool b) = .pbool b
      ∧ clean_for_json (.pint n) = .pint n
      ∧ clean_for_json (.pstr s) = .pstr s
      ∧ (∀ w ∈ subVals (clean_for_json v), isBadFloat w = false ∧ isWholeFloat w = false) := by
  refine ⟨rfl, rfl, rfl, ?_, ?_, ?_, rfl, rfl, rfl, rfl, subVals_clean_good v⟩
  · by_cases h : q.den = 1
    · rw [if_pos h]
      have hfix : q = (truncRat q : ℚ) := (truncRat_fixed_iff q).mpr h
      rw [show clean_for_json (.pfloat (.finite q))
          = if q = (truncRat q : ℚ) then .pint (truncRat q) else .pfloat (.finite q) from rfl]
      rw [if_pos hfix]
      have hnum : truncRat q = q.num := by
        have h2 : (q.num : ℚ) = q := by
          rw [← Rat.den_eq_one_iff]
          exact h
        rw [truncRat]
        rcases le_or_lt 0 q with hq | hq
        · rw [if_pos hq, ← h2, Int.floor_intCast, Rat.num_intCast]
        · rw [if_neg (not_le.mpr hq), ← h2, Int.ceil_intCast, Rat.num_intCast]
      rw [hnum]
    · rw [if_neg h]
      have hfix : ¬ q = (truncRat q : ℚ) := fun hc => h ((truncRat_fixed_iff q).mp hc)
      rw [show clean_for_json (.pfloat (.finite q))
          = if q = (truncRat q : ℚ) then .pint (truncRat q) else .pfloat (.finite q) from rfl]
      rw [if_neg hfix]
  · rw [show clean_for_json (.pdict es) = .pdict (cleanDict es) from rfl, cleanDict_eq_map]
  · rw [show clean_for_json (.plist vs) = .plist (cleanList vs) from rfl, cleanList_eq_map]

theorem sum_map_ite_add {K : Type} [DecidableEq K] (keys : List K) (k0 : K)
    (hnd : keys.Nodup) (hmem : k0 ∈ keys) (c : ℚ) (g : K → ℚ) :
    (keys.map (fun k => if k = k0 then c + g k else g k)).sum = c + (keys.map g).sum := by
  induction keys with
  | nil => cases hmem
  | cons k ks ih =>
    rcases List.nodup_cons.mp hnd with ⟨hk, hks⟩
    by_cases he : k = k0
    · subst he
      have hcongr : ks.map (fun x => if x = k then c + g x else g x) = ks.map g := by
        refine List.map_congr_left (fun x hx => ?_)
        refine if_neg (fun h2 : x = k => hk ?_)
        rw [← h2]
        exact hx
      rw [List.map_cons, List.sum_cons, hcongr, if_pos rfl, List.map_cons, List.sum_cons]
      ring
    · have hmem2 : k0 ∈ ks := (List.mem_cons.mp hmem).resolve_left (fun h2 => he h2.symm)
      simp only [List.map_cons, List.sum_cons, if_neg he, ih hks hmem2]
      ring

theorem sum_partition_opt {α K : Type} [DecidableEq K] (keyfn : α → Option K) (f : α → ℚ)
    (rows : List α) (keys : List K) (hnd : keys.Nodup)
    (hcov : ∀ r ∈ rows, ∀ k, keyfn r = some k → k ∈ keys) :
    (keys.map (fun k => ((rows.filter (fun r => keyfn r == some k)).map f).sum)).sum
      = ((rows.filter (fun r => (keyfn r).isSome)).map f).sum := by
  induction rows with
  | nil => simp
  | cons r rows ih =>
    have hcov2 : ∀ x ∈ rows, ∀ k, keyfn x = some k → k ∈ keys :=
      fun x hx => hcov x (List.mem_cons_of_mem r hx)
    cases hk : keyfn r with
    | none =>
      have hmap : keys.map (fun k => (((r :: rows).filter (fun x => keyfn x == some k)).map f).sum)
          = keys.map (fun k => ((rows.filter (fun x => keyfn x == some k)).map f).sum) := by
        refine List.map_congr_left (fun k _ => ?_)
        have hc : (keyfn r == some k) = false := by
          rw [hk]
          rfl
        simp [List.filter_cons, hc]
      rw [hmap, ih hcov2]
      have hs : ((keyfn r).isSome) = false := by
        rw [hk]
        rfl
      simp [List.filter_cons, hs]
    | some k0 =>
      have hk0 : k0 ∈ keys := hcov r (List.mem_cons_self r rows) k0 hk
      have hmap : keys.map (fun k => (((r :: rows).filter (fun x => keyfn x == some k)).map f).sum)
          = keys.map (fun k =>
              if k = k0 then f r + ((rows.filter (fun x => keyfn x == some k)).map f).sum
              else ((rows.filter (fun x => keyfn x == some k)).map f).sum) := by
        refine List.map_congr_left (fun k _ => ?_)
        by_cases he : k = k0
        · subst he
          have hc : (keyfn r == some k) = true := by
            rw [hk]
            simp
          rw [if_pos rfl]
          simp [List.filter_cons, hc]
        · have hc : (keyfn r == some k) = false := by
            rw [hk, beq_eq_false_iff_ne]
            simp only [ne_eq, Option.some.injEq]
            exact fun hh => he hh.symm
          rw [if_neg he]
          simp [List.filter_cons, hc]
      rw [hmap, sum_map_ite_add keys k0 hnd hk0 (f r) _, ih hcov2]
      have hs : ((keyfn r).isSome) = true := by
        rw [hk]
        rfl
      simp [List.filter_cons, hs]

theorem sum_partition_total {α K : Type} [DecidableEq K] (keyfn : α → K) (f : α → ℚ)
    (rows : List α) (keys : List K) (hnd : keys.Nodup)
    (hcov : ∀ r ∈ rows, keyfn r ∈ keys) :
    (keys.map (fun k => ((rows.filter (fun r => keyfn r == k)).map f).sum)).sum
      = (rows.map f).sum := by
  have h := sum_partition_opt (fun r => some (keyfn r)) f rows keys hnd
    (fun r hr k hkk => by
      injection hkk with h2
      exact h2 ▸ hcov r hr)
  have hfix : ∀ k : K, rows.filter (fun r => (some (keyfn r) : Option K) == some k)
      = rows.filter (fun r => keyfn r == k) := by
    intro k
    refine List.filter_congr (fun r _ => ?_)
    simp
  have hall : rows.filter (fun r => (some (keyfn r) : Option K).isSome) = rows :=
    List.filter_eq_self.mpr (fun r _ => rfl)
  rw [List.map_congr_left (fun k _ => by rw [hfix k]), hall] at h
  exact h

theorem nodup_sortBy_dedup {α : Type} [DecidableEq α] (le : α → α → Bool) (l : List α) :
    (sortBy le l.dedup).Nodup :=
  ((sortBy_perm le l.dedup).nodup_iff).mpr (List.nodup_dedup l)

theorem mem_sortBy_dedup {α : Type} [DecidableEq α] {le : α → α → Bool} {l : List α} {x : α} :
    x ∈ sortBy le l.dedup ↔ x ∈ l := by
  rw [mem_sortBy, List.mem_dedup]

/-- The input of the C2 counterexample: a row with no titleJP and integer
sales, and a titled row with fractional sales, same month and channel. -/
def claim2Rows : List RawRow :=
  [⟨none, some "K", some "piccoma", some "2024-01-05", some 3⟩,
   ⟨some "A", some "K", some "piccoma", some "2024-01-06", some (1 / 2)⟩]

unseal Rat.add Rat.mul Rat.inv Rat.sub Rat.ofScientific in
/-- C2 counterexample.  On claim2Rows the cleaned set has total sales 7/2,
but the monthly and platform summaries emit truncated totals summing to 3,
and the title summary (which drops the row with a missing titleJP and then
truncates) sums to 0; no two of these match the claim. -/
theorem claim2_cex :
    sumSales (cleanRows claim2Rows) = 7 / 2
      ∧ ((monthly_summary (cleanRows claim2Rows)).map (fun e => e.totalSales)).sum = 3
      ∧ ((title_summary [] (cleanRows claim2Rows)).map (fun e => e.totalSales)).sum = 0
      ∧ ((platform_summary (cleanRows claim2Rows)).map (fun e => e.totalSales)).sum = 3
      ∧ ((3 : ℤ) : ℚ) ≠ 7 / 2
      ∧ ((0 : ℤ) : ℚ) ≠ 7 / 2 := by
  decide

/-- C2 (amended).  The exact, pre-truncation group totals are
sum-conservative: summed over the monthly entries and over the platform
entries they give the total sales of the cleaned record set, and summed
over the title entries they give the total sales of the records that carry
a titleJP (a record with a missing titleJP belongs to no title group).
The emitted totalSales fields are the integer truncations of these exact
group totals (C10), so the sums of the emitted fields equal the total only
when every group total is whole. -/
theorem claim2_sum_conservation (cats : List CatRow) (recs : List Rec) :
    ((monthly_summary recs).map (fun e => monthSum recs e.month)).sum = sumSales recs
      ∧ ((platform_summary recs).map
          (fun e => sumSales (recs.filter (fun r => r.channel == e.platform)))).sum
          = sumSales recs
      ∧ ((title_summary cats recs).map
          (fun e => sumSales (recs.filter (fun r => r.titleJP == some e.titleJP)))).sum
          = sumSales (recs.filter (fun r => (r.titleJP).isSome)) := by
  refine ⟨?_, ?_, ?_⟩
  · have h1 : (monthly_summary recs).map (fun e => monthSum recs e.month)
        = (monthKeys recs).map (fun m => monthSum recs m) := by
      rw [monthly_summary, List.map_map]
      rfl
    rw [h1]
    exact sum_partition_total Rec.monthKey Rec.sales recs (monthKeys recs)
      (nodup_sortBy_dedup _ _)
      (fun r hr => mem_sortBy_dedup.mpr (List.mem_map_of_mem Rec.monthKey hr))
  · have hperm : List.Perm
        ((platform_summary recs).map
          (fun e => sumSales (recs.filter (fun r => r.channel == e.platform))))
        (((allChannels recs).map (mkPlatformEntry recs)).map
          (fun e => sumSales (recs.filter (fun r => r.channel == e.platform)))) :=
      (sortBy_perm _ _).map _
    rw [hperm.sum_eq, List.map_map]
    exact sum_partition_total Rec.channel Rec.sales recs (allChannels recs)
      (nodup_sortBy_dedup _ _)
      (fun r hr => mem_sortBy_dedup.mpr (List.mem_map_of_mem Rec.channel hr))
  · have hperm : List.Perm
        ((title_summary cats recs).map
          (fun e => sumSales (recs.filter (fun r => r.titleJP == some e.titleJP))))
        (((titleKeys recs).map (mkTitleEntry cats recs)).map
          (fun e => sumSales (recs.filter (fun r => r.titleJP == some e.titleJP)))) :=
      (sortBy_perm _ _).map _
    rw [hperm.sum_eq, List.map_map]
    exact sum_partition_opt Rec.titleJP Rec.sales recs (titleKeys recs)
      (nodup_sortBy_dedup _ _)
      (fun r hr k hk => mem_sortBy_dedup.mpr (List.mem_filterMap.mpr ⟨r, hr, hk⟩))

/-- Descending comparison by a key, the shape of every sort_values and
list.sort call of the script. -/
def descBy {α β : Type} [LinearOrder β] (key : α → β) : α → α → Bool :=
  fun a b => decide (key b ≤ key a)

theorem descBy_total {α β : Type} [LinearOrder β] (key : α → β) (a b : α) :
    descBy key a b = true ∨ descBy key b a = true := by
  simp only [descBy, decide_eq_true_eq]
  exact le_total (key b) (key a)

theorem descBy_trans {α β : Type} [LinearOrder β] (key : α → β) (a b c : α)
    (h1 : descBy key a b = true) (h2 : descBy key b c = true) : descBy key a c = true := by
  simp only [descBy, decide_eq_true_eq] at h1 h2 ⊢
  exact le_trans h2 h1

/-- An ascending sort of deduplicated strings is strictly increasing. -/
theorem sortBy_dedup_lt (l : List String) :
    (sortBy ascString l.dedup).Pairwise (fun a b => a < b) := by
  have h0 : (l.dedup).Pairwise (fun a b : String => a ≠ b) := List.nodup_dedup l
  have h1 := sortBy_pairwise strLeB_total strLeB_trans h0
  refine List.Pairwise.imp ?_ h1
  intro a b hab
  rcases hab with ⟨hle, htie⟩
  have hle2 : a ≤ b := (strLeB_iff a b).mp hle
  rcases lt_or_eq_of_le hle2 with h | h
  · exact h
  · subst h
    exact absurd rfl (htie ((strLeB_iff a a).mpr le_rfl))

/-- The input of the C3 counterexample: title b appears in the source table
before title a, with equal sales. -/
def claim3Rows : List RawRow :=
  [⟨some "b", none, some "piccoma", some "2024-01-01", some 5⟩,
   ⟨some "a", none, some "piccoma", some "2024-01-02", some 5⟩]

unseal Rat.add Rat.mul Rat.inv Rat.sub Rat.ofScientific in
/-- C3 counterexample.  On claim3Rows the two title entries tie at
totalSales 5; the first-appearance order of titleJP in the source table is
b then a, yet the title summary lists a before b (the pandas groupby
iterates keys in ascending sorted order, not in appearance order, and the
stable final sort keeps that order among ties). -/
theorem claim3_cex :
    (title_summary [] (cleanRows claim3Rows)).map (fun e => (e.titleJP, e.totalSales))
        = [("a", 5), ("b", 5)]
      ∧ ((cleanRows claim3Rows).filterMap Rec.titleJP).dedup = ["b", "a"]
      ∧ (["a", "b"] : List String) ≠ ["b", "a"] := by
  decide

/-- C3 (amended).  The title summary is sorted descending by the emitted
totalSales, and entries with equal totalSales appear in ascending
lexicographic titleJP order — the groupby key order — not in the
first-appearance order of titleJP in the source table. -/
theorem claim3_sorted (cats : List CatRow) (recs : List Rec) :
    (title_summary cats recs).Pairwise (fun a b =>
      b.totalSales < a.totalSales
        ∨ (a.totalSales = b.totalSales ∧ a.titleJP < b.titleJP)) := by
  have hkeys : (titleKeys recs).Pairwise (fun a b => a < b) := sortBy_dedup_lt _
  have hmap : ((titleKeys recs).map (mkTitleEntry cats recs)).Pairwise
      (fun a b => a.titleJP < b.titleJP) := by
    rw [List.pairwise_map]
    exact hkeys
  have h2 := sortBy_pairwise
    (descBy_total TitleEntry.totalSales) (descBy_trans TitleEntry.totalSales) hmap
  refine List.Pairwise.imp ?_ h2
  intro a b hab
  rcases hab with ⟨hle, htie⟩
  rw [descBy, decide_eq_true_eq] at hle
  rcases lt_or_eq_of_le hle with h | h
  · exact Or.inl h
  · refine Or.inr ⟨h.symm, ?_⟩
    refine htie ?_
    rw [descBy, decide_eq_true_eq, h]

/-- The catalog of the C7 counterexample: one row whose titleJP cell holds
the empty string (present, not missing). -/
def claim7Cats : List CatRow := [⟨some "", some "K", some "S", some "piccoma"⟩]

/-- C7 counterexample.  A catalog row whose titleJP is the empty string is
not skipped: the groupby drops only missing keys, so the master output
carries an entry with an empty titleJP, which the claim rules out. -/
theorem claim7_cex :
    (title_master claim7Cats).map (fun e => e.titleJP) = [""] := by
  decide

/-- C7 (amended).  No two title-master entries share a titleJP; rows with a
missing titleJP are skipped, but a row carrying the empty string as its
titleJP is kept and yields an entry with an empty key; every entry's
platforms list is strictly increasing (hence duplicate-free and
lexicographically sorted) and holds exactly the normalized values of the
non-blank platform cells of the catalog rows for that key. -/
theorem claim7_master (cats : List CatRow) :
    (title_master cats).Pairwise (fun a b => a.titleJP ≠ b.titleJP)
      ∧ (title_master cats).Forall (fun e =>
          e.platforms.Pairwise (fun p q => p < q)
          ∧ ∀ p, (p ∈ e.platforms ↔
              p ∈ (((cats.filter (fun c => c.titleJP == some e.titleJP)).filterMap
                    CatRow.platform).filter (fun x => strStrip x != "")).map
                    normalize_channel_str)) := by
  constructor
  · have hkeys : (masterKeys cats).Pairwise (fun a b => a < b) := sortBy_dedup_lt _
    rw [title_master, List.pairwise_map]
    exact List.Pairwise.imp (fun h => ne_of_lt h) hkeys
  · rw [List.forall_iff_forall_mem]
    intro e he
    rw [title_master] at he
    rcases List.mem_map.mp he with ⟨t, ht, rfl⟩
    refine ⟨sortBy_dedup_lt _, fun p => ?_⟩
    exact mem_sortBy_dedup

/-- The input of the C8 counterexample: a title group whose first row has a
missing titleKR (the second row carries one) and a fractional total. -/
def claim8Rows : List RawRow :=
  [⟨some "T", none, some "piccoma", some "2024-01-01", some (3 / 2)⟩,
   ⟨some "T", some "K", some "piccoma", some "2024-01-02", some 1⟩]

unseal Rat.add Rat.mul Rat.inv Rat.sub Rat.ofScientific in
/-- C8 counterexample.  On claim8Rows the group for title T has rows with
titleKR missing then K, and sales 3/2 and 1.  The first non-empty titleKR
encountered is K and the exact total is 5/2, but the entry carries
titleKR = "" (the code only inspects the first row) and totalSales = 2
(truncation). -/
theorem claim8_cex :
    (title_summary [] (cleanRows claim8Rows)).map (fun e => (e.titleKR, e.totalSales))
        = [("", 2)]
      ∧ firstNonNa ((cleanRows claim8Rows).map Rec.titleKR) = "K"
      ∧ sumSales ((cleanRows claim8Rows).filter (fun r => r.titleJP == some "T")) = 5 / 2
      ∧ ("" : String) ≠ "K"
      ∧ ((2 : ℤ) : ℚ) ≠ 5 / 2 := by
  decide

/-- C8 (amended).  For every title-summary entry, titleKR is the titleKR of
the group's first row — the empty string when that cell is missing, even if
a later row of the group carries one — and totalSales is the integer
truncation of the sum of the group's sales values. -/
theorem claim8_title_fields (cats : List CatRow) (recs : List Rec) :
    (title_summary cats recs).Forall (fun e =>
      e.titleKR = (match (recs.filter (fun r => r.titleJP == some e.titleJP)).head? with
                   | some r => r.titleKR.getD ""
                   | none => "")
      ∧ e.totalSales
          = truncRat (sumSales (recs.filter (fun r => r.titleJP == some e.titleJP)))) := by
  rw [List.forall_iff_forall_mem]
  intro e he
  rw [title_summary] at he
  rcases List.mem_map.mp (mem_sortBy.mp he) with ⟨t, ht, rfl⟩
  exact ⟨rfl, rfl⟩

theorem idxmax_maxVal_spec (l : List (String × ℚ)) :
    ∀ best : String × ℚ,
      (∀ x ∈ l, x.2 ≤ maxValAux best.2 l)
      ∧ best.2 ≤ maxValAux best.2 l
      ∧ (idxmaxAux best l = best.1 ∧ maxValAux best.2 l = best.2
          ∨ ∃ x ∈ l, idxmaxAux best l = x.1 ∧ maxValAux best.2 l = x.2) := by
  induction l with
  | nil =>
    intro best
    refine ⟨?_, le_refl _, Or.inl ⟨rfl, rfl⟩⟩
    intro x hx
    cases hx
  | cons p rest ih =>
    intro best
    by_cases h : best.2 < p.2
    · have hmax : max best.2 p.2 = p.2 := max_eq_right (le_of_lt h)
      have hunf1 : maxValAux best.2 (p :: rest) = maxValAux p.2 rest := by
        simp only [maxValAux]
        rw [hmax]
      have hunf2 : idxmaxAux best (p :: rest) = idxmaxAux p rest := by
        simp only [idxmaxAux, if_pos h]
      rcases ih p with ⟨ha, hb, hc⟩
      refine ⟨?_, ?_, ?_⟩
      · intro x hx
        rw [hunf1]
        rcases List.mem_cons.mp hx with rfl | hx
        · exact hb
        · exact ha x hx
      · rw [hunf1]
        exact le_trans (le_of_lt h) hb
      · rw [hunf1, hunf2]
        rcases hc with ⟨h1, h2⟩ | ⟨x, hx, h1, h2⟩
        · exact Or.inr ⟨p, List.mem_cons_self p rest, h1, h2⟩
        · exact Or.inr ⟨x, List.mem_cons_of_mem p hx, h1, h2⟩
    · have hmax : max best.2 p.2 = best.2 := max_eq_left (not_lt.mp h)
      have hunf1 : maxValAux best.2 (p :: rest) = maxValAux best.2 rest := by
        simp only [maxValAux]
        rw [hmax]
      have hunf2 : idxmaxAux best (p :: rest) = idxmaxAux best rest := by
        simp only [idxmaxAux, if_neg h]
      rcases ih best with ⟨ha, hb, hc⟩
      refine ⟨?_, ?_, ?_⟩
      · intro x hx
        rw [hunf1]
        rcases List.mem_cons.mp hx with rfl | hx
        · exact le_trans (not_lt.mp h) hb
        · exact ha x hx
      · rw [hunf1]
        exact hb
      · rw [hunf1, hunf2]
        rcases hc with ⟨h1, h2⟩ | ⟨x, hx, h1, h2⟩
        · exact Or.inl ⟨h1, h2⟩
        · exact Or.inr ⟨x, List.mem_cons_of_mem p hx, h1, h2⟩

theorem maxVal_spec (p : String × ℚ) (rest : List (String × ℚ)) :
    (∀ x ∈ p :: rest, x.2 ≤ maxVal (p :: rest))
      ∧ ∃ x ∈ p :: rest, idxmax (p :: rest) = x.1 ∧ maxVal (p :: rest) = x.2 := by
  rcases idxmax_maxVal_spec rest p with ⟨ha, hb, hc⟩
  have h1 : maxVal (p :: rest) = maxValAux p.2 rest := rfl
  have h2 : idxmax (p :: rest) = idxmaxAux p rest := rfl
  refine ⟨?_, ?_⟩
  · intro x hx
    rw [h1]
    rcases List.mem_cons.mp hx with rfl | hx
    · exact hb
    · exact ha x hx
  · rw [h1, h2]
    rcases hc with ⟨hi, hm⟩ | ⟨x, hx, hi, hm⟩
    · exact ⟨p, List.mem_cons_self p rest, hi, hm⟩
    · exact ⟨x, List.mem_cons_of_mem p hx, hi, hm⟩

/-- For a nonempty group, the idxmax date of the per-date totals is one of
the group's dates, its per-date total is the Series maximum, and every
date's total is at most that maximum. -/
theorem peak_attains (g : List Rec) (hg : g ≠ []) :
    idxmax (dailyTotals g) ∈ g.map Rec.date
      ∧ sumSales (g.filter (fun r => r.date == idxmax (dailyTotals g))) = maxVal (dailyTotals g)
      ∧ ∀ d ∈ g.map Rec.date,
          sumSales (g.filter (fun r => r.date == d)) ≤ maxVal (dailyTotals g) := by
  rcases List.exists_mem_of_ne_nil g hg with ⟨r, hr⟩
  have hd2 : r.date ∈ dateKeysOf g :=
    mem_sortBy_dedup.mpr (List.mem_map_of_mem Rec.date hr)
  have hne : dailyTotals g ≠ [] := by
    intro hnil
    rw [dailyTotals, List.map_eq_nil_iff] at hnil
    have hd3 : r.date ∈ dateKeysOf g := hd2
    rw [hnil] at hd3
    cases hd3
  rcases List.exists_cons_of_ne_nil hne with ⟨p, rest, heq⟩
  have hspec := maxVal_spec p rest
  rw [← heq] at hspec
  rcases hspec with ⟨hall, x, hx, hxi, hxm⟩
  have hx2 := hx
  rw [dailyTotals] at hx2
  rcases List.mem_map.mp hx2 with ⟨d, hd, hxd⟩
  refine ⟨?_, ?_, ?_⟩
  · rw [hxi, ← hxd]
    exact mem_sortBy_dedup.mp hd
  · rw [hxi, hxm, ← hxd]
  · intro d2 hd2m
    have hmem : (d2, sumSales (g.filter (fun r2 => r2.date == d2))) ∈ dailyTotals g := by
      rw [dailyTotals]
      exact List.mem_map_of_mem _ (mem_sortBy_dedup.mpr hd2m)
    exact hall _ hmem

/-- A title key of the cleaned table has a nonempty group. -/
theorem titleKey_group_ne_nil {recs : List Rec} {t : String} (ht : t ∈ titleKeys recs) :
    recs.filter (fun r => r.titleJP == some t) ≠ [] := by
  rcases List.mem_filterMap.mp (mem_sortBy_dedup.mp ht) with ⟨r, hr, hrt⟩
  refine List.ne_nil_of_mem (a := r) ?_
  refine List.mem_filter.mpr ⟨hr, ?_⟩
  rw [hrt]
  simp

/-- The input of the C5 counterexample: one record with fractional sales. -/
def claim5Rows : List RawRow :=
  [⟨some "A", none, some "piccoma", some "2024-01-01", some (21 / 2)⟩]

unseal Rat.add Rat.mul Rat.inv Rat.sub Rat.ofScientific in
/-- C5 counterexample.  With a single record of sales 21/2, the maximum
per-date sum inside the title group is 21/2, but the entry emits
peakSales = 10: int() truncation is applied, so peakSales does not equal
the maximum per-date sum. -/
theorem claim5_cex :
    (title_summary [] (cleanRows claim5Rows)).map (fun e => (e.peakSales, e.peakDate))
        = [(10, "2024-01-01")]
      ∧ sumSales (((cleanRows claim5Rows).filter (fun r => r.titleJP == some "A")).filter
          (fun r => r.date == "2024-01-01")) = 21 / 2
      ∧ ((10 : ℤ) : ℚ) ≠ 21 / 2 := by
  decide

/-- C5 (amended).  For every title-summary entry, peakDate is one of the
group's dates, its per-date sales sum attains the maximum over all the
group's distinct dates, and peakSales is the integer truncation of that
maximum per-date sum (not the untruncated maximum itself). -/
theorem claim5_peak (cats : List CatRow) (recs : List Rec) :
    (title_summary cats recs).Forall (fun e =>
      (∀ d ∈ (recs.filter (fun r => r.titleJP == some e.titleJP)).map Rec.date,
          sumSales ((recs.filter (fun r => r.titleJP == some e.titleJP)).filter
              (fun r => r.date == d))
            ≤ sumSales ((recs.filter (fun r => r.titleJP == some e.titleJP)).filter
              (fun r => r.date == e.peakDate)))
      ∧ e.peakDate ∈ (recs.filter (fun r => r.titleJP == some e.titleJP)).map Rec.date
      ∧ e.peakSales = truncRat (sumSales ((recs.filter (fun r => r.titleJP == some e.titleJP)).filter
          (fun r => r.date == e.peakDate)))) := by
  rw [List.forall_iff_forall_mem]
  intro e he
  rcases List.mem_map.mp (mem_sortBy.mp he) with ⟨t, ht, rfl⟩
  rcases peak_attains (recs.filter (fun r => r.titleJP == some t))
    (titleKey_group_ne_nil ht) with ⟨h1, h2, h3⟩
  have hjp : (mkTitleEntry cats recs t).titleJP = t := rfl
  have hpd : (mkTitleEntry cats recs t).peakDate
      = idxmax (dailyTotals (recs.filter (fun r => r.titleJP == some t))) := rfl
  have hps : (mkTitleEntry cats recs t).peakSales
      = truncRat (maxVal (dailyTotals (recs.filter (fun r => r.titleJP == some t)))) := rfl
  rw [hjp, hpd, hps]
  refine ⟨?_, h1, ?_⟩
  · intro d hd
    rw [h2]
    exact h3 d hd
  · rw [h2]

/-- C10.  Every sales figure emitted by the three summary views — monthly
totalSales and per-platform breakdown values, title totalSales, platform
breakdown values, peakSales and monthly-trend values, platform totalSales,
monthly-trend values and topTitles sales — is the integer truncation toward
zero (Python int()) of the exact summed sales value it reports; the
untruncated sums are never emitted in these views. -/
theorem claim10_truncation (cats : List CatRow) (recs : List Rec) :
    (monthly_summary recs).Forall (fun e =>
      e.totalSales = truncRat (monthSum recs e.month)
      ∧ e.platforms.Forall (fun pc =>
          pc.2 = truncRat (monthChanSum recs e.month pc.1)))
    ∧ (title_summary cats recs).Forall (fun e =>
        e.totalSales = truncRat (sumSales (recs.filter (fun r => r.titleJP == some e.titleJP)))
        ∧ e.platforms.Forall (fun pe =>
            pe.sales = truncRat (sumSales ((recs.filter (fun r => r.titleJP == some e.titleJP)).filter
              (fun r => r.channel == pe.name))))
        ∧ e.peakSales = truncRat (sumSales ((recs.filter (fun r => r.titleJP == some e.titleJP)).filter
            (fun r => r.date == e.peakDate)))
        ∧ e.monthlyTrend.Forall (fun te =>
            te.sales = truncRat (sumSales ((recs.filter (fun r => r.titleJP == some e.titleJP)).filter
              (fun r => r.monthKey == te.month)))))
    ∧ (platform_summary recs).Forall (fun e =>
        e.totalSales = truncRat (sumSales (recs.filter (fun r => r.channel == e.platform)))
        ∧ e.monthlyTrend.Forall (fun te =>
            te.sales = truncRat (sumSales ((recs.filter (fun r => r.channel == e.platform)).filter
              (fun r => r.monthKey == te.month))))
        ∧ e.topTitles.Forall (fun tt =>
            tt.sales = truncRat (sumSales ((recs.filter (fun r => r.channel == e.platform)).filter
              (fun r => r.titleKR == some tt.titleKR && r.titleJP == some tt.titleJP))))) := by
  refine ⟨?_, ?_, ?_⟩
  · rw [List.forall_iff_forall_mem]
    intro e he
    rw [monthly_summary] at he
    rcases List.mem_map.mp he with ⟨m, hm, rfl⟩
    refine ⟨rfl, ?_⟩
    rw [List.forall_iff_forall_mem]
    intro pc hpc
    rcases List.mem_filterMap.mp hpc with ⟨c, hc, hfc⟩
    by_cases hpos : 0 < monthChanSum recs m c
    · rw [if_pos hpos] at hfc
      injection hfc with hfc2
      rw [← hfc2]
    · rw [if_neg hpos] at hfc
      cases hfc
  · rw [List.forall_iff_forall_mem]
    intro e he
    rcases List.mem_map.mp (mem_sortBy.mp he) with ⟨t, ht, rfl⟩
    refine ⟨rfl, ?_, ?_, ?_⟩
    · rw [List.forall_iff_forall_mem]
      intro pe hpe
      rcases List.mem_filterMap.mp hpe with ⟨x, hx, hfx⟩
      rcases List.mem_map.mp (mem_sortBy.mp hx) with ⟨c, hc, rfl⟩
      by_cases hpos : 0 < sumSales ((recs.filter (fun r => r.titleJP == some t)).filter
          (fun r => r.channel == c))
      · rw [if_pos hpos] at hfx
        injection hfx with hfx2
        rw [← hfx2]
        rfl
      · rw [if_neg hpos] at hfx
        cases hfx
    · have hpd : (mkTitleEntry cats recs t).peakDate
          = idxmax (dailyTotals (recs.filter (fun r => r.titleJP == some t))) := rfl
      have hps : (mkTitleEntry cats recs t).peakSales
          = truncRat (maxVal (dailyTotals (recs.filter (fun r => r.titleJP == some t)))) := rfl
      have hjp : (mkTitleEntry cats recs t).titleJP = t := rfl
      rcases peak_attains (recs.filter (fun r => r.titleJP == some t))
        (titleKey_group_ne_nil ht) with ⟨h1, h2, h3⟩
      rw [hjp, hpd, hps, h2]
    · rw [List.forall_iff_forall_mem]
      intro te hte
      rcases List.mem_map.mp hte with ⟨m, hm, rfl⟩
      rfl
  · rw [List.forall_iff_forall_mem]
    intro e he
    rcases List.mem_map.mp (mem_sortBy.mp he) with ⟨c, hc, rfl⟩
    refine ⟨rfl, ?_, ?_⟩
    · rw [List.forall_iff_forall_mem]
      intro te hte
      rcases List.mem_map.mp hte with ⟨m, hm, rfl⟩
      rfl
    · rw [List.forall_iff_forall_mem]
      intro tt htt
      rcases List.mem_map.mp htt with ⟨x, hx, rfl⟩
      rcases List.mem_map.mp (mem_sortBy.mp (List.take_subset _ _ hx)) with ⟨p, hp, rfl⟩
      rfl

/-- Strict lexicographic order on (titleKR, titleJP) pairs. -/
def pairLt (a b : String × String) : Prop :=
  a.1 < b.1 ∨ (a.1 = b.1 ∧ a.2 < b.2)

theorem ascPair_iff (a b : String × String) :
    ascPair a b = true ↔ (a.1 < b.1 ∨ (a.1 = b.1 ∧ a.2 ≤ b.2)) := by
  rw [ascPair, Bool.or_eq_true, Bool.and_eq_true, strLtB_iff, strLeB_iff, beq_iff_eq]

theorem ascPair_total (a b : String × String) :
    ascPair a b = true ∨ ascPair b a = true := by
  rw [ascPair_iff, ascPair_iff]
  rcases lt_trichotomy a.1 b.1 with h | h | h
  · exact Or.inl (Or.inl h)
  · rcases le_total a.2 b.2 with h2 | h2
    · exact Or.inl (Or.inr ⟨h, h2⟩)
    · exact Or.inr (Or.inr ⟨h.symm, h2⟩)
  · exact Or.inr (Or.inl h)

theorem ascPair_trans (a b c : String × String)
    (h1 : ascPair a b = true) (h2 : ascPair b c = true) : ascPair a c = true := by
  rw [ascPair_iff] at h1 h2 ⊢
  rcases h1 with h1 | ⟨h1, h1b⟩
  · rcases h2 with h2 | ⟨h2, h2b⟩
    · exact Or.inl (lt_trans h1 h2)
    · exact Or.inl (h2 ▸ h1)
  · rcases h2 with h2 | ⟨h2, h2b⟩
    · exact Or.inl (h1 ▸ h2)
    · exact Or.inr ⟨h1.trans h2, le_trans h1b h2b⟩

theorem ascPair_antisymm {a b : String × String}
    (h1 : ascPair a b = true) (h2 : ascPair b a = true) : a = b := by
  rw [ascPair_iff] at h1 h2
  rcases h1 with h1 | ⟨h1, h1b⟩
  · rcases h2 with h2 | ⟨h2, h2b⟩
    · exact absurd h2 (lt_asymm h1)
    · exact absurd h2 (ne_of_gt h1)
  · rcases h2 with h2 | ⟨h2, h2b⟩
    · exact absurd h1 (ne_of_gt h2)
    · exact Prod.ext h1 (le_antisymm h1b h2b)

/-- The ascending sort of the deduplicated pair keys is strictly
increasing in the lexicographic pair order. -/
theorem pairKeys_pairwise_lt (l : List (String × String)) :
    (sortBy ascPair l.dedup).Pairwise pairLt := by
  have h0 : (l.dedup).Pairwise (fun a b : String × String => a ≠ b) := List.nodup_dedup l
  have h1 := sortBy_pairwise ascPair_total ascPair_trans h0
  refine List.Pairwise.imp ?_ h1
  intro a b hab
  rcases hab with ⟨hle, htie⟩
  have hne : a ≠ b := by
    intro he
    subst he
    exact htie hle rfl
  rcases (ascPair_iff a b).mp hle with h | ⟨h, h2⟩
  · exact Or.inl h
  · refine Or.inr ⟨h, ?_⟩
    refine lt_of_le_of_ne h2 (fun he => hne ?_)
    exact Prod.ext h he

theorem truncRat_mono {a b : ℚ} (h : a ≤ b) : truncRat a ≤ truncRat b := by
  rw [truncRat, truncRat]
  rcases le_or_lt 0 a with ha | ha
  · rw [if_pos ha, if_pos (le_trans ha h)]
    exact Int.floor_le_floor h
  · rw [if_neg (not_le.mpr ha)]
    rcases le_or_lt 0 b with hb | hb
    · rw [if_pos hb]
      have hc : ⌈a⌉ ≤ (0 : ℤ) := Int.ceil_le.mpr (by exact_mod_cast le_of_lt ha)
      exact le_trans hc (Int.floor_nonneg.mpr hb)
    · rw [if_neg (not_le.mpr hb)]
      exact Int.ceil_le_ceil h

/-- groupby([titleKR, titleJP]).sales.sum() written directly from the two
filters; the exact pair total the claim compares against. -/
def ttExact (recs : List Rec) (c : String) (kr jp : String) : ℚ :=
  sumSales ((recs.filter (fun r => r.channel == c)).filter
    (fun r => r.titleKR == some kr && r.titleJP == some jp))

theorem pairKey_inv {r : Rec} {p : String × String}
    (h : (match r.titleKR, r.titleJP with
          | some kr, some jp => some (kr, jp)
          | _, _ => none) = some p) :
    r.titleKR = some p.1 ∧ r.titleJP = some p.2 := by
  cases hkr : r.titleKR with
  | none =>
    rw [hkr] at h
    cases hjp : r.titleJP with
    | none =>
      rw [hjp] at h
      cases h
    | some jp =>
      rw [hjp] at h
      cases h
  | some kr =>
    rw [hkr] at h
    cases hjp : r.titleJP with
    | none =>
      rw [hjp] at h
      cases h
    | some jp =>
      rw [hjp] at h
      injection h with h2
      rw [← h2]
      exact ⟨rfl, rfl⟩

/-- The input of the C6 counterexample: the pair (b, b) is encountered
before (a, a) on the same platform, both with the fractional sum 11/2. -/
def claim6Rows : List RawRow :=
  [⟨some "b", some "b", some "piccoma", some "2024-01-01", some (11 / 2)⟩,
   ⟨some "a", some "a", some "piccoma", some "2024-01-02", some (11 / 2)⟩]

unseal Rat.add Rat.mul Rat.inv Rat.sub Rat.ofScientific in
/-- C6 counterexample.  On claim6Rows the platform's two pairs tie on the
exact sum 11/2; the encounter order is (b, b) before (a, a), yet topTitles
lists (a, a) first (ties follow the sorted pair-key order of the groupby,
not the encounter order), and each emitted sales value is the truncated 5,
not the pair's summed sales 11/2. -/
theorem claim6_cex :
    (platform_summary (cleanRows claim6Rows)).map (fun e => e.topTitles)
        = [[⟨"a", "a", 5⟩, ⟨"b", "b", 5⟩]]
      ∧ ((cleanRows claim6Rows).filterMap (fun r =>
            match r.titleKR, r.titleJP with
            | some kr, some jp => some (kr, jp)
            | _, _ => none)).dedup = [("b", "b"), ("a", "a")]
      ∧ ttExact (cleanRows claim6Rows) "piccoma" "a" "a" = 11 / 2
      ∧ ((5 : ℤ) : ℚ) ≠ 11 / 2 := by
  decide

/-- C6 (amended).  Every platform's topTitles has at most 10 entries; each
entry names a (titleKR, titleJP) pair present in the platform's rows, with
an emitted sales value equal to the integer truncation of that pair's exact
summed sales (not the exact sum itself); and the list is non-increasing in
the exact pair sums, hence non-increasing in the emitted sales.  The
relative order of entries whose exact sums tie is implementation-defined
(the numpy quicksort behind sort_values is unstable past its small-size
threshold) and in particular is not the encounter order of the pairs in the
source table, as the counterexample shows. -/
theorem claim6_top_titles (recs : List Rec) :
    (platform_summary recs).Forall (fun e =>
      e.topTitles.length ≤ 10
      ∧ e.topTitles.Forall (fun tt =>
          (∃ r ∈ recs.filter (fun r2 => r2.channel == e.platform),
              r.titleKR = some tt.titleKR ∧ r.titleJP = some tt.titleJP)
          ∧ tt.sales = truncRat (ttExact recs e.platform tt.titleKR tt.titleJP))
      ∧ e.topTitles.Pairwise (fun a b =>
          ttExact recs e.platform b.titleKR b.titleJP
              ≤ ttExact recs e.platform a.titleKR a.titleJP
          ∧ b.sales ≤ a.sales)) := by
  rw [List.forall_iff_forall_mem]
  intro e he
  rcases List.mem_map.mp (mem_sortBy.mp he) with ⟨c, hc, rfl⟩
  refine ⟨?_, ?_, ?_⟩
  · show (((sortBy descPairQ ((pairKeysOf (recs.filter (fun r => r.channel == c))).map
        (fun p => (p, pairSum (recs.filter (fun r => r.channel == c)) p)))).take 10).map
        (fun x => (⟨x.1.1, x.1.2, truncRat x.2⟩ : TopTitle))).length ≤ 10
    rw [List.length_map, List.length_take]
    exact min_le_left _ _
  · rw [List.forall_iff_forall_mem]
    intro tt htt
    rcases List.mem_map.mp htt with ⟨x, hx, rfl⟩
    rcases List.mem_map.mp (mem_sortBy.mp (List.take_subset _ _ hx)) with ⟨p, hp, rfl⟩
    have hp2 := List.mem_filterMap.mp (mem_sortBy_dedup.mp hp)
    rcases hp2 with ⟨r, hr, hmatch⟩
    rcases pairKey_inv hmatch with ⟨hkr, hjp⟩
    exact ⟨⟨r, hr, hkr, hjp⟩, rfl⟩
  · have hkeys := pairKeys_pairwise_lt
      ((recs.filter (fun r => r.channel == c)).filterMap (fun r =>
        match r.titleKR, r.titleJP with
        | some kr, some jp => some (kr, jp)
        | _, _ => none))
    have hmapped : (((pairKeysOf (recs.filter (fun r => r.channel == c))).map
        (fun p => (p, pairSum (recs.filter (fun r => r.channel == c)) p)))).Pairwise
        (fun x y => pairLt x.1 y.1) := by
      rw [List.pairwise_map]
      exact hkeys
    have hsorted := sortBy_pairwise
      (descBy_total Prod.snd) (descBy_trans Prod.snd) hmapped
    have htake := hsorted.sublist (List.take_sublist 10 _)
    have hmemfact : ∀ x ∈ (sortBy descPairQ ((pairKeysOf (recs.filter
        (fun r => r.channel == c))).map (fun p => (p, pairSum (recs.filter
        (fun r => r.channel == c)) p)))).take 10,
        x.2 = pairSum (recs.filter (fun r => r.channel == c)) x.1 := by
      intro x hx
      rcases List.mem_map.mp (mem_sortBy.mp (List.take_subset _ _ hx)) with ⟨p, hp, hxp⟩
      rw [← hxp]
    have hconv : List.Pairwise (fun x y =>
        pairSum (recs.filter (fun r => r.channel == c)) y.1
            ≤ pairSum (recs.filter (fun r => r.channel == c)) x.1
        ∧ truncRat y.2 ≤ truncRat x.2)
        ((sortBy descPairQ ((pairKeysOf (recs.filter
          (fun r => r.channel == c))).map (fun p => (p, pairSum (recs.filter
          (fun r => r.channel == c)) p)))).take 10) := pairwiseImpMem
      (fun x hxm y hym hxy => by
        rcases hxy with ⟨hle, htie⟩
        simp only [descBy, decide_eq_true_eq] at hle
        refine ⟨?_, truncRat_mono hle⟩
        rw [← hmemfact x hxm, ← hmemfact y hym]
        exact hle)
      htake
    show List.Pairwise _ (((sortBy descPairQ ((pairKeysOf (recs.filter
        (fun r => r.channel == c))).map (fun p => (p, pairSum (recs.filter
        (fun r => r.channel == c)) p)))).take 10).map
        (fun x => (⟨x.1.1, x.1.2, truncRat x.2⟩ : TopTitle)))
    rw [List.pairwise_map]
    exact hconv

end ConvertExcel
